import Mathlib

/-!
Shallow embedding of the stock-forecast pipeline (`src/app.py`).

The program's core is `load_data(start, end)`: it fetches raw daily rows
(date, close, volume) from the external market-data source, selects close
and volume, renames close to `y` and the date axis to `ds`, computes a
trailing 20-observation moving average `MA_20` and the one-step percentage
change `Return`, coerces every field (failures become missing markers), and
drops every row with a missing value in `{ds, y, Volume, MA_20, Return}`.
It then fits a Prophet model with the selected regressor columns, builds a
future frame with `make_future_dataframe(periods=horizon)`, overwrites each
selected regressor column of the future frame with the last training value
(`future[r] = last_vals[r]`), and predicts.

Modelling conventions:
  * dates are `Int` (day numbers); numeric values are `ℚ` (exact arithmetic
    in place of IEEE floats — none of the properties below concern rounding);
  * a field that is missing in the source data or fails `pd.to_datetime` /
    `pd.to_numeric` coercion (NaN/NaT) is `none`;
  * rows carry their pandas integer index (`reset_index` runs before the
    feature computations, and `dropna` preserves the surviving labels);
  * `pct_change` is modelled without forward-filling: a retained row always
    has a present previous close (its `MA_20` window covers index `i-1`),
    so padded and unpadded semantics agree on every retained row; a zero
    previous close makes the float quotient non-finite (NaN or ±inf) and is
    modelled as missing.
-/

/-- A raw daily observation after coercion: calendar date (`none` when the
date fails to parse), close price and traded volume (`none` when missing or
non-numeric). -/
structure RawRow where
  date : Option Int
  close : Option ℚ
  volume : Option ℚ
deriving DecidableEq, Repr

/-- The close (`y`) series of the raw frame at integer index `i`. -/
def closeAt (raw : List RawRow) (i : Nat) : Option ℚ :=
  (raw[i]?).bind RawRow.close

/-- The volume series of the raw frame at integer index `i`. -/
def volumeAt (raw : List RawRow) (i : Nat) : Option ℚ :=
  (raw[i]?).bind RawRow.volume

/-- The date (`ds`) series of the raw frame at integer index `i`. -/
def dateAt (raw : List RawRow) (i : Nat) : Option Int :=
  (raw[i]?).bind RawRow.date

/-- The 20-observation window `y[i-19..i]` that `rolling(window=20)` reads
at index `i`. -/
def ma20Window (raw : List RawRow) (i : Nat) : List (Option ℚ) :=
  (List.range 20).map fun j => closeAt raw (i - 19 + j)

/-- Pandas `df["y"].rolling(window=20).mean()` at index `i`: defined exactly when
`i ≥ 19` and all twenty closes `y[i-19..i]` are present, in which case it is
their arithmetic mean; otherwise NaN (`none`). -/
def ma20At (raw : List RawRow) (i : Nat) : Option ℚ :=
  if 19 ≤ i ∧ (ma20Window raw i).all Option.isSome = true then
    some (((ma20Window raw i).map fun o => o.getD 0).sum / 20)
  else none

/-- Pandas `df["y"].pct_change()` at index `i`: `(y[i] - y[i-1]) / y[i-1]`, missing
at index 0, when either close is missing, or when the previous close is zero
(the float quotient is then non-finite). -/
def retAt (raw : List RawRow) : Nat → Option ℚ
  | 0 => none
  | k + 1 =>
    match closeAt raw k, closeAt raw (k + 1) with
    | some p, some c => if p = 0 then none else some ((c - p) / p)
    | _, _ => none

/-- One row of the enriched frame, before the `dropna`: the pandas integer
index plus the five columns `ds`, `y`, `Volume` (`volume`), `MA_20` (`ma20`),
`Return` (`ret`). -/
structure EnrichedRow where
  idx : Nat
  ds : Option Int
  y : Option ℚ
  volume : Option ℚ
  ma20 : Option ℚ
  ret : Option ℚ
deriving DecidableEq, Repr

/-- The enriched row the pipeline computes at raw index `i`. -/
def mkRow (raw : List RawRow) (i : Nat) : EnrichedRow :=
  ⟨i, dateAt raw i, closeAt raw i, volumeAt raw i, ma20At raw i, retAt raw i⟩

/-- The whole enriched frame before the `dropna`: one row per raw row. -/
def enrichAll (raw : List RawRow) : List EnrichedRow :=
  (List.range raw.length).map (mkRow raw)

/-- The `dropna(subset=["ds", "y", "Volume", "MA_20", "Return"])` predicate:
a row survives iff every one of the five columns is present. -/
def rowComplete (r : EnrichedRow) : Bool :=
  r.ds.isSome && r.y.isSome && r.volume.isSome && r.ma20.isSome && r.ret.isSome

/-- Function `load_data` of `src/app.py` as a pure transform of the fetched rows:
select/rename, compute `MA_20` and `Return`, coerce, drop incomplete rows.
(The `start`/`end` arguments only parametrise the external fetch; the body
never inspects them, so they are not parameters here.) -/
def load_data (raw : List RawRow) : List EnrichedRow :=
  (enrichAll raw).filter rowComplete

/-- The regressor columns the sidebar can select. -/
inductive Reg
  | volume
  | ma20
  | ret
deriving DecidableEq, Repr

/-- Column lookup of a regressor in a training-frame row. -/
def regVal (row : EnrichedRow) : Reg → Option ℚ
  | .volume => row.volume
  | .ma20 => row.ma20
  | .ret => row.ret

/-- The training frame's `ds` column. -/
def trainingDs (df : List EnrichedRow) : List Int :=
  df.filterMap EnrichedRow.ds

/-- The `periods` consecutive daily dates immediately following `last`. -/
def extensionDates (last : Int) (periods : Nat) : List Int :=
  (List.range periods).map fun k : Nat => last + ((k : Int) + 1)

/-- Modelled from the spec: Prophet's `make_future_dataframe(periods, freq="D")`
is not in `src/`; per §4.3 it "builds a future date axis consisting of every
training date plus `horizon` additional dates immediately following the last
training date" at daily frequency. -/
def make_future_dataframe (historyDates : List Int) (periods : Nat) : List Int :=
  match historyDates.getLast? with
  | none => []
  | some last => historyDates ++ extensionDates last periods

/-- Series `last_vals = df[regs].iloc[-1]`: the selected-regressor values of the
last training row (empty when the frame is empty — the real code would raise
an indexing error there, a state the pipeline never reaches). -/
def lastVals (df : List EnrichedRow) (regs : List Reg) : List (Reg × Option ℚ) :=
  match df.getLast? with
  | none => []
  | some row => regs.map fun r => (r, regVal row r)

/-- One row of the future frame passed to `predict`: the date plus the
selected regressor columns. -/
structure FutureRow where
  ds : Int
  regVals : List (Reg × Option ℚ)
deriving DecidableEq, Repr

/-- The future frame the program builds: `make_future_dataframe` for the
axis, then `for r in regs: future[r] = last_vals[r]`, which assigns the
scalar `last_vals[r]` to the entire column — every row, historical and
extension alike. -/
def buildFuture (df : List EnrichedRow) (regs : List Reg) (horizon : Nat) :
    List FutureRow :=
  (make_future_dataframe (trainingDs df) horizon).map fun d =>
    ⟨d, lastVals df regs⟩

/-- The spec's error taxonomy (§7). -/
inductive PipeError
  | invalidRange
  | sourceUnavailable
  | emptyTrainingData
  | regressorMismatch
deriving DecidableEq, Repr

/-- Modelled from the spec: Prophet's `fit` is not in `src/`; per §4.3 an
empty training frame is a fatal input for fitting
(`EmptyTrainingDataError`). -/
def fitCheck (df : List EnrichedRow) : Except PipeError Unit :=
  if df.isEmpty then .error .emptyTrainingData else .ok ()

/-- The fetch → prepare/enrich → fit → future-frame chain of `src/app.py`.
`fetched` is what the external market-data source returned for
`(start, endDate)`; the program itself performs no validation of the range
(there is no comparison of `start` and `endDate` anywhere in the source). -/
def pipeline (start endDate : Int) (fetched : List RawRow) (regs : List Reg)
    (horizon : Nat) : Except PipeError (List FutureRow) :=
  match fitCheck (load_data fetched) with
  | .error e => .error e
  | .ok _ => .ok (buildFuture (load_data fetched) regs horizon)

/-- Raw-row ordering used to state input validity: whenever both dates
parse, they are strictly increasing. -/
def dateLt (a b : RawRow) : Bool :=
  match a.date, b.date with
  | some x, some y => decide (x < y)
  | _, _ => true

/-- A 25-trading-day sample input: dates 0..24, constant close 1, volume 1. -/
def sampleRaw : List RawRow :=
  (List.range 25).map fun i => ⟨some (Int.ofNat i), some 1, some 1⟩

/-- A 20-trading-day input: dates 0..19, constant close 1, volume 1. -/
def raw20 : List RawRow :=
  (List.range 20).map fun i => ⟨some (Int.ofNat i), some 1, some 1⟩

/-- A 19-trading-day input: dates 0..18, constant close 1, volume 1. -/
def raw19 : List RawRow :=
  (List.range 19).map fun i => ⟨some (Int.ofNat i), some 1, some 1⟩

/-- A 5-trading-day input: dates 0..4, constant close 1, volume 1. -/
def raw5 : List RawRow :=
  (List.range 5).map fun i => ⟨some (Int.ofNat i), some 1, some 1⟩

/-- A 21-row input whose dates have a weekend-style gap: dates 0..19 and 21. -/
def rawGap : List RawRow :=
  ((List.range 20).map fun i => ⟨some (Int.ofNat i), some 1, some 1⟩) ++
    [⟨some 21, some 1, some 1⟩]

/-- Enriched rows that survive the drop satisfy an `MA_20` window of 20 raw
rows, so a raw frame shorter than 20 rows cleans to the empty frame. -/
theorem load_data_eq_nil_of_short (raw : List RawRow) (h : raw.length < 20) :
    load_data raw = [] := by
  unfold load_data
  apply List.filter_eq_nil_iff.mpr
  intro r hr
  rcases List.mem_map.mp hr with ⟨i, hi, rfl⟩
  have hi' : i < raw.length := List.mem_range.mp hi
  have h19 : ¬ 19 ≤ i := by omega
  simp [rowComplete, mkRow, ma20At, h19]

/-- Rows surviving the drop have every column present; in particular the
`MA_20` guard must have passed. -/
theorem mem_load_data_elim (raw : List RawRow) (r : EnrichedRow)
    (hr : r ∈ load_data raw) :
    ∃ i, i < raw.length ∧ r = mkRow raw i ∧
      (dateAt raw i).isSome = true ∧ (closeAt raw i).isSome = true ∧
      (volumeAt raw i).isSome = true ∧ (ma20At raw i).isSome = true ∧
      (retAt raw i).isSome = true := by
  rcases List.mem_filter.mp hr with ⟨hmem, hcomp⟩
  rcases List.mem_map.mp hmem with ⟨i, hi, rfl⟩
  refine ⟨i, List.mem_range.mp hi, rfl, ?_⟩
  unfold rowComplete at hcomp
  simp only [mkRow, Bool.and_eq_true] at hcomp
  exact ⟨hcomp.1.1.1.1, hcomp.1.1.1.2, hcomp.1.1.2, hcomp.1.2, hcomp.2⟩

/-- A `pipeline` run either fails the empty-frame fit check or succeeds; no
other error is ever produced (in particular never `invalidRange`). -/
theorem pipeline_cases (s e : Int) (fetched : List RawRow) (regs : List Reg)
    (hor : Nat) :
    pipeline s e fetched regs hor = Except.error PipeError.emptyTrainingData ∨
    pipeline s e fetched regs hor =
      Except.ok (buildFuture (load_data fetched) regs hor) := by
  unfold pipeline fitCheck
  cases h : (load_data fetched).isEmpty <;> simp [h]

/-- C9. Data preparation and enrichment are deterministic: two calls of
`load_data` on identical raw input yield identical frames. -/
theorem load_data_deterministic (raw raw2 : List RawRow) (h : raw2 = raw) :
    load_data raw2 = load_data raw := by
  rw [h]

theorem load_data_deterministic_witness :
    load_data sampleRaw = load_data sampleRaw :=
  load_data_deterministic sampleRaw sampleRaw rfl

/-- C2 counterexample. An input with exactly 20 usable rows — fewer than 21 —
cleans to a one-row frame, not to the empty frame: row 19 has a full
20-observation `MA_20` window and a previous close for `Return`. -/
theorem twenty_rows_not_empty_cex :
    raw20.length = 20 ∧ raw20.length < 21 ∧ load_data raw20 ≠ [] ∧
    (load_data raw20).length = 1 := by
  refine ⟨by decide, by decide, ?_, ?_⟩ <;> with_unfolding_all decide

/-- C2 (amended). For every raw input with fewer than 20 usable rows,
preparing and enriching it yields an empty frame. -/
theorem short_input_empty_frame (raw : List RawRow) (h : raw.length < 20) :
    load_data raw = [] :=
  load_data_eq_nil_of_short raw h

theorem short_input_empty_frame_witness :
    raw5.length < 20 ∧ load_data raw5 = [] :=
  ⟨by decide, short_input_empty_frame raw5 (by decide)⟩

/-- C8. A raw input spanning exactly 19 trading days enriches to the empty
frame, and the fit step then fails with `EmptyTrainingDataError` (no model is
produced). -/
theorem nineteen_rows_empty_fit_error (raw : List RawRow) (h : raw.length = 19)
    (s e : Int) (regs : List Reg) (hor : Nat) :
    load_data raw = [] ∧
    pipeline s e raw regs hor = Except.error PipeError.emptyTrainingData := by
  have hempty : load_data raw = [] := load_data_eq_nil_of_short raw (by omega)
  refine ⟨hempty, ?_⟩
  unfold pipeline fitCheck
  simp [hempty]

theorem nineteen_rows_empty_fit_error_witness :
    load_data raw19 = [] ∧
    pipeline 0 100 raw19 [Reg.volume, Reg.ma20, Reg.ret] 60 =
      Except.error PipeError.emptyTrainingData :=
  nineteen_rows_empty_fit_error raw19 (by decide) 0 100
    [Reg.volume, Reg.ma20, Reg.ret] 60

/-- C7 counterexample. With `start = 5 ≥ end = 3` the source returns no rows
and the run still executes the whole preparation chain, failing only at fit
time with the empty-training-data error — not with `InvalidRangeError`. -/
theorem no_invalid_range_cex :
    (3 : Int) ≤ 5 ∧
    pipeline 5 3 [] [Reg.volume] 30 = Except.error PipeError.emptyTrainingData ∧
    PipeError.emptyTrainingData ≠ PipeError.invalidRange :=
  ⟨by decide, by with_unfolding_all rfl, by decide⟩

/-- C7 (amended). The program performs no validation of the date range:
for `start ≥ end` no `InvalidRangeError` is raised (no run ever produces it);
the fetch returns no rows and the pipeline runs to the fit step, where it
fails with the empty-training-data error. -/
theorem no_range_validation (s e : Int) (fetched : List RawRow)
    (regs : List Reg) (hor : Nat) (hse : e ≤ s) :
    pipeline s e fetched regs hor ≠ Except.error PipeError.invalidRange ∧
    pipeline s e [] regs hor = Except.error PipeError.emptyTrainingData := by
  constructor
  · rcases pipeline_cases s e fetched regs hor with h | h <;> rw [h] <;> simp
  · unfold pipeline fitCheck
    simp [load_data, enrichAll]

theorem no_range_validation_witness :
    pipeline 7 7 raw5 [Reg.ret] 45 ≠ Except.error PipeError.invalidRange ∧
    pipeline 7 7 [] [Reg.ret] 45 = Except.error PipeError.emptyTrainingData :=
  no_range_validation 7 7 raw5 [Reg.ret] 45 (by decide)

/-- C1. Every row of the horizon-extension portion of the future frame
carries, for each selected regressor `r`, exactly the last observed training
value of `r` — a constant, neither interpolated nor trended. -/
theorem carry_forward_on_extension (df : List EnrichedRow) (regs : List Reg)
    (hor : Nat) (lastRow : EnrichedRow) (hlast : df.getLast? = some lastRow)
    (r : Reg) (hr : r ∈ regs) (row : FutureRow)
    (hrow : row ∈ (buildFuture df regs hor).drop (trainingDs df).length) :
    (r, regVal lastRow r) ∈ row.regVals ∧
    ∀ v, (r, v) ∈ row.regVals → v = regVal lastRow r := by
  have hrow' : row ∈ buildFuture df regs hor := List.mem_of_mem_drop hrow
  rcases List.mem_map.mp hrow' with ⟨d, hd, rfl⟩
  constructor
  · show (r, regVal lastRow r) ∈ lastVals df regs
    unfold lastVals
    rw [hlast]
    exact List.mem_map.mpr ⟨r, hr, rfl⟩
  · intro v hv
    have hv' : (r, v) ∈ lastVals df regs := hv
    unfold lastVals at hv'
    rw [hlast] at hv'
    rcases List.mem_map.mp hv' with ⟨r', _, heq⟩
    rcases Prod.mk.injEq .. ▸ heq with ⟨rfl, rfl⟩
    rfl

theorem carry_forward_on_extension_witness :
    (Reg.ma20, regVal (mkRow sampleRaw 24) Reg.ma20) ∈
      (FutureRow.mk 25
        (lastVals (load_data sampleRaw) [Reg.volume, Reg.ma20])).regVals ∧
    ∀ v, (Reg.ma20, v) ∈
        (FutureRow.mk 25
          (lastVals (load_data sampleRaw) [Reg.volume, Reg.ma20])).regVals →
      v = regVal (mkRow sampleRaw 24) Reg.ma20 :=
  carry_forward_on_extension (load_data sampleRaw) [Reg.volume, Reg.ma20] 2
    (mkRow sampleRaw 24) (by with_unfolding_all decide) Reg.ma20 (by decide)
    (FutureRow.mk 25 (lastVals (load_data sampleRaw) [Reg.volume, Reg.ma20]))
    (by with_unfolding_all decide)

/-- C10. The carry-forward loop assigns each selected regressor column of
the future frame as a whole: every row — the rows for historical training
dates included — holds the single last observed training value of each
selected regressor, while the `ds` column of the historical portion keeps
the training dates unchanged. -/
theorem future_frame_overwritten (df : List EnrichedRow) (regs : List Reg)
    (hor : Nat) (lastRow : EnrichedRow) (hlast : df.getLast? = some lastRow) :
    (buildFuture df regs hor).map FutureRow.ds =
      make_future_dataframe (trainingDs df) hor ∧
    ((buildFuture df regs hor).map FutureRow.ds).take (trainingDs df).length =
      trainingDs df ∧
    ∀ row ∈ buildFuture df regs hor,
      row.regVals = regs.map fun r => (r, regVal lastRow r) := by
  have hmap : (buildFuture df regs hor).map FutureRow.ds =
      make_future_dataframe (trainingDs df) hor := by
    unfold buildFuture
    rw [List.map_map]
    exact List.map_id _
  refine ⟨hmap, ?_, ?_⟩
  · rw [hmap]
    unfold make_future_dataframe
    cases hl : (trainingDs df).getLast? with
    | none =>
      rw [List.getLast?_eq_none_iff.mp hl]
      rfl
    | some last => exact List.take_left _ _
  · intro row hrow
    rcases List.mem_map.mp hrow with ⟨d, hd, rfl⟩
    show lastVals df regs = _
    unfold lastVals
    rw [hlast]

theorem future_frame_overwritten_witness :
    (buildFuture (load_data sampleRaw) [Reg.volume, Reg.ret] 3).map FutureRow.ds =
      make_future_dataframe (trainingDs (load_data sampleRaw)) 3 ∧
    ((buildFuture (load_data sampleRaw) [Reg.volume, Reg.ret] 3).map
        FutureRow.ds).take (trainingDs (load_data sampleRaw)).length =
      trainingDs (load_data sampleRaw) ∧
    ∀ row ∈ buildFuture (load_data sampleRaw) [Reg.volume, Reg.ret] 3,
      row.regVals = [Reg.volume, Reg.ret].map fun r =>
        (r, regVal (mkRow sampleRaw 24) r) :=
  future_frame_overwritten (load_data sampleRaw) [Reg.volume, Reg.ret] 3
    (mkRow sampleRaw 24) (by with_unfolding_all decide)

/-- C3. On every retained row the `MA_20` column equals the arithmetic mean
of the 20 most recent close values `y[i-19..i]` ending at the row's raw
index `i`; rows whose 20-observation window is unavailable — in particular
the first 19 raw rows — are excluded (`i ≥ 19` always holds). -/
theorem ma20_trailing_mean (raw : List RawRow) (r : EnrichedRow)
    (hr : r ∈ load_data raw) :
    19 ≤ r.idx ∧
    (∀ j, j < 20 → (closeAt raw (r.idx - 19 + j)).isSome = true) ∧
    r.ma20 = some ((((List.range 20).map fun j =>
      (closeAt raw (r.idx - 19 + j)).getD 0).sum) / 20) := by
  rcases mem_load_data_elim raw r hr with ⟨i, hi, rfl, hds, hy, hvol, hma, hret⟩
  unfold ma20At at hma
  by_cases hcond : 19 ≤ i ∧ (ma20Window raw i).all Option.isSome = true
  · have hidx : (mkRow raw i).idx = i := rfl
    refine ⟨hidx ▸ hcond.1, ?_, ?_⟩
    · intro j hj
      rw [hidx]
      exact List.all_eq_true.mp hcond.2 _
        (List.mem_map.mpr ⟨j, List.mem_range.mpr hj, rfl⟩)
    · show ma20At raw i = _
      unfold ma20At
      rw [if_pos hcond, hidx]
      unfold ma20Window
      rw [List.map_map]
      rfl
  · rw [if_neg hcond] at hma
    simp at hma

theorem ma20_trailing_mean_witness :
    19 ≤ (mkRow sampleRaw 19).idx ∧
    (∀ j, j < 20 →
      (closeAt sampleRaw ((mkRow sampleRaw 19).idx - 19 + j)).isSome = true) ∧
    (mkRow sampleRaw 19).ma20 = some ((((List.range 20).map fun j =>
      (closeAt sampleRaw ((mkRow sampleRaw 19).idx - 19 + j)).getD 0).sum) / 20) :=
  ma20_trailing_mean sampleRaw (mkRow sampleRaw 19) (by with_unfolding_all decide)

/-- C4. On every retained row the `Return` column equals
`(y[i] - y[i-1]) / y[i-1]`, computed from the immediately preceding raw row
only; the first raw row, where `Return` is undefined, is excluded
(`i ≥ 1` always holds). -/
theorem return_pct_change (raw : List RawRow) (r : EnrichedRow)
    (hr : r ∈ load_data raw) :
    1 ≤ r.idx ∧
    ∃ p c : ℚ, closeAt raw (r.idx - 1) = some p ∧ closeAt raw r.idx = some c ∧
      p ≠ 0 ∧ r.ret = some ((c - p) / p) := by
  rcases mem_load_data_elim raw r hr with ⟨i, hi, rfl, hds, hy, hvol, hma, hret⟩
  cases i with
  | zero => simp [retAt] at hret
  | succ k =>
    have hidx : (mkRow raw (k + 1)).idx = k + 1 := rfl
    refine ⟨by omega, ?_⟩
    simp only [retAt] at hret
    cases hp : closeAt raw k with
    | none => rw [hp] at hret; simp at hret
    | some p =>
      cases hc : closeAt raw (k + 1) with
      | none => rw [hp, hc] at hret; simp at hret
      | some c =>
        rw [hp, hc] at hret
        by_cases hzero : p = 0
        · simp [hzero] at hret
        · refine ⟨p, c, ?_, ?_, hzero, ?_⟩
          · rw [hidx]; simpa using hp
          · rw [hidx]; exact hc
          · show retAt raw (k + 1) = _
            simp only [retAt]
            rw [hp, hc]
            simp [hzero]

theorem return_pct_change_witness :
    1 ≤ (mkRow sampleRaw 20).idx ∧
    ∃ p c : ℚ, closeAt sampleRaw ((mkRow sampleRaw 20).idx - 1) = some p ∧
      closeAt sampleRaw (mkRow sampleRaw 20).idx = some c ∧
      p ≠ 0 ∧ (mkRow sampleRaw 20).ret = some ((c - p) / p) :=
  return_pct_change sampleRaw (mkRow sampleRaw 20) (by with_unfolding_all decide)

/-- Extension dates are consecutive: each of the `hor` appended dates is the
predecessor plus one day. -/
theorem chain_succ_extension (last : Int) (hor : Nat) :
    List.Chain' (fun a b : Int => b = a + 1) (extensionDates last hor) := by
  unfold extensionDates
  rw [List.chain'_map]
  cases hor with
  | zero => simp
  | succ m =>
    rw [List.chain'_range_succ]
    intro j hj
    push_cast
    ring

/-- C6 counterexample. A 21-row input whose dates jump from 20 straight to
21 (a weekend-style gap) yields a non-empty training frame whose future
axis, with horizon 1, is not gap-free at daily granularity: the historical
portion keeps the training dates' own gap. -/
theorem future_axis_gaps_cex :
    trainingDs (load_data rawGap) ≠ [] ∧
    ¬ List.Chain' (fun a b : Int => b = a + 1)
        (make_future_dataframe (trainingDs (load_data rawGap)) 1) := by
  have hds : trainingDs (load_data rawGap) = [19, 21] := by
    with_unfolding_all rfl
  have haxis : make_future_dataframe (trainingDs (load_data rawGap)) 1 =
      [19, 21, 22] := by
    with_unfolding_all rfl
  constructor
  · rw [hds]; simp
  · intro hch
    rw [haxis] at hch
    rcases List.chain'_cons.mp hch with ⟨h1, _⟩
    omega

/-- C6 (amended). For a non-empty, strictly increasing training date axis
and horizon `hor`, the future axis is the training dates followed by `hor`
consecutive daily dates immediately after the last training date; it has
length `len + hor` and is monotonically increasing, and the extension
portion is gap-free at daily granularity — the historical portion retains
whatever gaps the training dates had. -/
theorem future_axis_structure (ds : List Int) (hor : Nat) (last : Int)
    (hlast : ds.getLast? = some last) (hsorted : List.Chain' (· < ·) ds) :
    make_future_dataframe ds hor = ds ++ extensionDates last hor ∧
    (make_future_dataframe ds hor).length = ds.length + hor ∧
    List.Chain' (· < ·) (make_future_dataframe ds hor) ∧
    List.Chain' (fun a b : Int => b = a + 1) (extensionDates last hor) := by
  have heq : make_future_dataframe ds hor = ds ++ extensionDates last hor := by
    unfold make_future_dataframe
    rw [hlast]
  have hext := chain_succ_extension last hor
  refine ⟨heq, by rw [heq]; simp [extensionDates], ?_, hext⟩
  rw [heq]
  apply List.chain'_append.mpr
  refine ⟨hsorted, hext.imp fun a b h => by omega, ?_⟩
  intro x hx y hy
  rw [hlast] at hx
  simp only [Option.mem_def, Option.some.injEq] at hx
  subst hx
  cases hor with
  | zero => simp [extensionDates] at hy
  | succ m =>
    unfold extensionDates at hy
    rw [List.range_succ_eq_map] at hy
    simp only [List.map_cons, List.head?_cons, Option.mem_def,
      Option.some.injEq, Nat.cast_zero, zero_add] at hy
    omega

theorem future_axis_structure_witness :
    make_future_dataframe [0, 1] 2 = [0, 1] ++ extensionDates 1 2 ∧
    (make_future_dataframe [0, 1] 2).length = ([0, 1] : List Int).length + 2 ∧
    List.Chain' (· < ·) (make_future_dataframe [0, 1] 2) ∧
    List.Chain' (fun a b : Int => b = a + 1) (extensionDates 1 2) :=
  future_axis_structure [0, 1] 2 1 (by decide)
    (by simp [List.chain'_cons, List.chain'_singleton])

/-- Ordering of enriched rows by their dates: whenever both dates are
present they strictly increase. -/
def dsLt (r1 r2 : EnrichedRow) : Prop :=
  ∀ x y : Int, r1.ds = some x → r2.ds = some y → x < y

/-- Pairwise date-orderedness of rows descends to the extracted `ds`
column. -/
theorem pairwise_filterMap_ds {l : List EnrichedRow} (h : l.Pairwise dsLt) :
    List.Pairwise (fun x y : Int => x < y) (l.filterMap EnrichedRow.ds) := by
  induction l with
  | nil => simp
  | cons a t ih =>
    rcases List.pairwise_cons.mp h with ⟨ha, ht⟩
    rw [List.filterMap_cons]
    cases hds : a.ds with
    | none => exact ih ht
    | some x =>
      apply List.pairwise_cons.mpr
      refine ⟨?_, ih ht⟩
      intro y hy
      rcases List.mem_filterMap.mp hy with ⟨b, hb, hbds⟩
      exact ha b hb x y hds hbds

/-- A present date at index `i` pins down the raw row there. -/
theorem dateAt_eq_some_elim (raw : List RawRow) (i : Nat) (x : Int)
    (h : dateAt raw i = some x) :
    i < raw.length ∧ ∃ row, raw[i]? = some row ∧ row.date = some x := by
  unfold dateAt at h
  rcases Option.bind_eq_some.mp h with ⟨row, hrow, hdate⟩
  rcases List.getElem?_eq_some_iff.mp hrow with ⟨hi, _⟩
  exact ⟨hi, row, hrow, hdate⟩

/-- The cleaned frame inherits pairwise date order from the raw input. -/
theorem pairwise_dsLt_load_data (raw : List RawRow)
    (hsort : List.Pairwise (fun a b => dateLt a b = true) raw) :
    (load_data raw).Pairwise dsLt := by
  have hall : (enrichAll raw).Pairwise dsLt := by
    unfold enrichAll
    rw [List.pairwise_map]
    apply (List.pairwise_lt_range raw.length).imp
    intro i j hij x y hx hy
    rcases dateAt_eq_some_elim raw i x hx with ⟨hi, rowi, hrowi, hxi⟩
    rcases dateAt_eq_some_elim raw j y hy with ⟨hj, rowj, hrowj, hyj⟩
    have hrel := List.pairwise_iff_getElem.mp hsort i j hi hj hij
    have hgi : raw[i] = rowi := (List.getElem?_eq_some_iff.mp hrowi).2
    have hgj : raw[j] = rowj := (List.getElem?_eq_some_iff.mp hrowj).2
    rw [hgi, hgj] at hrel
    unfold dateLt at hrel
    rw [hxi, hyj] at hrel
    exact of_decide_eq_true hrel
  exact hall.sublist (List.filter_sublist _)

/-- C5. Under the market-data source's guarantee that raw dates are strictly
increasing wherever they parse, the prepared-and-enriched frame satisfies
the TrainingFrame invariants: every retained row has all five of
`{ds, y, Volume, MA_20, Return}` present (violating rows are excluded, not
coerced to a placeholder), and the `ds` column is strictly increasing with
no duplicate dates. -/
theorem training_frame_invariants (raw : List RawRow)
    (hsort : List.Pairwise (fun a b => dateLt a b = true) raw) :
    (∀ r ∈ load_data raw, rowComplete r = true) ∧
    List.Pairwise (fun x y : Int => x < y)
      ((load_data raw).filterMap EnrichedRow.ds) := by
  refine ⟨?_, pairwise_filterMap_ds (pairwise_dsLt_load_data raw hsort)⟩
  intro r hr
  exact (List.mem_filter.mp hr).2

theorem training_frame_invariants_witness :
    (∀ r ∈ load_data sampleRaw, rowComplete r = true) ∧
    List.Pairwise (fun x y : Int => x < y)
      ((load_data sampleRaw).filterMap EnrichedRow.ds) :=
  training_frame_invariants sampleRaw (by decide)
